import Mathlib

/-!
Verification of the stripes-bigram MapReduce pipeline (`stripes-bigram.py`).

The Python program is shallowly embedded as follows:
* Python `dict` / `collections.Counter` values become association lists
  `List (String × α)` whose update operations (`dictGet`, `dictSet`,
  `dictIncr`, …) mirror Python dict semantics (update the existing entry in
  place, otherwise append; insertion order is preserved, as in Python 3).
* Integer counts are `Nat`; probabilities are `ℚ` (Python float division
  `count / total` on exactly representable small integers, modelled exactly).
* Code that can raise (`sublines[1]` → `IndexError`, `x / 0` →
  `ZeroDivisionError`, use of an unbound variable → `NameError`) returns
  `Except String _` with the exception name as the error value.
* Python's `sorted` with `key=itemgetter(1), reverse=True` is a stable sort
  by value descending; it is embedded as a stable insertion sort, which
  produces the same list (the output of a stable sort is unique).
-/

namespace Stripes

/-- `TARGET_WORD = "me"` from the source. -/
def TARGET_WORD : String := "me"

/-- `DUMCHAR = "*"`, the SELF marker used to count occurrences of a word. -/
def DUMCHAR : String := "*"

/-- Python `d[k]` with a default (as `Counter.__getitem__`, which returns 0
for a missing key without inserting it). -/
def dictGet {α : Type} : List (String × α) → String → α → α
  | [], _, dflt => dflt
  | (k1, v) :: rest, k, dflt => if k1 = k then v else dictGet rest k dflt

/-- Python `d[k] = v`: replace the value of the existing entry, else append. -/
def dictSet {α : Type} : List (String × α) → String → α → List (String × α)
  | [], k, v => [(k, v)]
  | (k1, v1) :: rest, k, v =>
      if k1 = k then (k1, v) :: rest else (k1, v1) :: dictSet rest k v

/-- Python `d.get(k)` as an `Option`: presence plus value of a key. -/
def dictFind {α : Type} : List (String × α) → String → Option α
  | [], _ => none
  | (k1, v) :: rest, k => if k1 = k then some v else dictFind rest k

/-- Python `del d[k]` (on a dict, whose keys are unique). -/
def removeKey {α : Type} (d : List (String × α)) (k : String) : List (String × α) :=
  d.filter (fun kv => !(kv.1 == k))

/-- Pointwise transformation of the values of a dict (used for the in-place
loop `result[key] = result[key]/total_w`, which keeps keys and order). -/
def mapVal {α β : Type} (f : α → β) (d : List (String × α)) : List (String × β) :=
  d.map (fun kv => (kv.1, f kv.2))

/-- A stripe: neighbour counts plus the SELF marker, as emitted by `mapper`. -/
abbrev Stripe := List (String × Nat)

/-- `d[k] += v` on a `Counter` of ints. -/
def dictIncr (d : List (String × Nat)) (k : String) (v : Nat) : List (String × Nat) :=
  dictSet d k (dictGet d k 0 + v)

/-- `d[k] += v` on a dict of rationals (used only by the spec-side merge). -/
def dictIncrQ (d : List (String × ℚ)) (k : String) (v : ℚ) : List (String × ℚ) :=
  dictSet d k (dictGet d k 0 + v)

/-! ### Tokenizer (lines 66–68 of the source) -/

/-- `string.punctuation` of CPython, the characters removed by `translator`. -/
def PUNCT : List Char :=
  ['!', Char.ofNat 34, '#', '$', '%', '&', Char.ofNat 39, '(', ')', '*', '+',
   ',', '-', '.', '/', ':', ';', '<', '=', '>', '?', '@', '[', Char.ofNat 92,
   ']', '^', '_', Char.ofNat 96, Char.ofNat 123, '|', Char.ofNat 125, '~']

def isPunct (c : Char) : Bool := PUNCT.contains c

/-- Python whitespace as used by `str.strip()` / `str.split()`:
space, \t, \n, \v, \f, \r. -/
def isWs (c : Char) : Bool :=
  (c == ' ') || (c == Char.ofNat 9) || (c == Char.ofNat 10) ||
  (c == Char.ofNat 11) || (c == Char.ofNat 12) || (c == Char.ofNat 13)

/-- `line.split(",", 1)[1]`: the text after the first comma; `none` when the
line has no comma (in which case the Python subscript raises `IndexError`). -/
def splitFirstComma : List Char → Option (List Char)
  | [] => none
  | c :: rest => if c = ',' then some rest else splitFirstComma rest

/-- `str.split()`: split on runs of whitespace, discarding empty pieces.
The second argument accumulates the current word, reversed. -/
def wordsAux : List Char → List Char → List String
  | [], acc => if acc.isEmpty then [] else [String.mk acc.reverse]
  | c :: cs, acc =>
      if isWs c then
        if acc.isEmpty then wordsAux cs []
        else String.mk acc.reverse :: wordsAux cs []
      else wordsAux cs (c :: acc)

/-- `str.strip()`: drop leading and trailing whitespace. -/
def stripWs (cs : List Char) : List Char :=
  ((cs.dropWhile isWs).reverse.dropWhile isWs).reverse

/-- `sublines[1].translate(translator)` then `.strip().lower().split()`. -/
def pytokens (rest : List Char) : List String :=
  wordsAux ((stripWs (rest.filter (fun c => !(isPunct c)))).map Char.toLower) []

/-- Lines 66–68 of `mapper`: returns the token list of a record, or the
`IndexError` that `sublines[1]` raises when the line has no comma. -/
def tokensOfLine (line : List Char) : Except String (List String) :=
  match splitFirstComma line with
  | none => Except.error "IndexError"
  | some rest => Except.ok (pytokens rest)

/-! ### StripeBuilder (lines 70–89 of the source) -/

/-- The stripe built for the first occurrence of `line[word]` at index `word`:
`t_stripes = {DUMCHAR: 1}`, then for `neighbour in range(word+1, len(line))`,
if `line[neighbour-1] == line[word]` increment `t_stripes[line[neighbour]]`. -/
def buildStripe (line : List String) (word : Nat) : Stripe :=
  (List.range' (word + 1) (line.length - (word + 1))).foldl
    (fun st j =>
      if line.getD (j - 1) "" = line.getD word "" then
        dictIncr st (line.getD j "") 1
      else st)
    [(DUMCHAR, 1)]

/-- The position loop of `mapper`: `processed` is the set of token values
already seen; a first occurrence emits `buildStripe`, a repeat occurrence
emits the minimal stripe `{DUMCHAR: 1}`. -/
def mapperAux (line : List String) (processed : List String) :
    List Nat → List (String × Stripe)
  | [] => []
  | i :: rest =>
      if line.getD i "" ∈ processed then
        (line.getD i "", [(DUMCHAR, 1)]) :: mapperAux line processed rest
      else
        (line.getD i "", buildStripe line i) ::
          mapperAux line (line.getD i "" :: processed) rest

/-- All `(token, stripe)` pairs `mapper` yields for one token sequence. -/
def mapperTokens (line : List String) : List (String × Stripe) :=
  mapperAux line [] (List.range line.length)

/-- The full `mapper`: tokenize the raw line (possibly raising `IndexError`)
and emit the stripes. -/
def mapper (line : List Char) : Except String (List (String × Stripe)) :=
  match tokensOfLine line with
  | Except.error e => Except.error e
  | Except.ok ts => Except.ok (mapperTokens ts)

/-! ### DistributionAggregator (`reducer`, lines 91–118 of the source) -/

/-- The inner loop of `reducer`: `for key, value in strip.items():
result[key] += value`. -/
def mergeStripe (acc : List (String × Nat)) (s : Stripe) : List (String × Nat) :=
  s.foldl (fun a kv => dictIncr a kv.1 kv.2) acc

/-- The outer loop of `reducer`: fold all stripes into the `Counter`. -/
def mergeAll (strips : List Stripe) : List (String × Nat) :=
  strips.foldl mergeStripe []

/-- The normalization part of `reducer`: divide every count by
`total_w = result[DUMCHAR]` and delete the `DUMCHAR` entry. -/
def reducerDist (result : List (String × Nat)) : List (String × ℚ) :=
  removeKey
    (mapVal (fun (v : Nat) => (v : ℚ) / ((dictGet result DUMCHAR 0 : Nat) : ℚ)) result)
    DUMCHAR

/-- `reducer`: merge the stripes, then normalize.  The division loop runs only
when the merged `Counter` is non-empty; it raises `ZeroDivisionError` exactly
when it runs with `total_w = 0`. -/
def reducer (word : String) (strips : List Stripe) :
    Except String (String × List (String × ℚ)) :=
  let result := mergeAll strips
  if result ≠ [] ∧ dictGet result DUMCHAR 0 = 0 then
    Except.error "ZeroDivisionError"
  else
    Except.ok (word, reducerDist result)

/-! ### TopKSelector (`reducer_topten`, lines 120–131 of the source) -/

/-- Stable insertion (descending by value): `p` is placed before the first
entry whose value is strictly smaller, so earlier entries win ties.  Folding
it from the right yields the same list as Python's stable
`sorted(d.items(), key=itemgetter(1), reverse=True)`. -/
def sortIns (p : String × ℚ) : List (String × ℚ) → List (String × ℚ)
  | [] => [p]
  | q :: qs => if p.2 ≥ q.2 then p :: q :: qs else q :: sortIns p qs

/-- `sorted(probdict.items(), key=operator.itemgetter(1), reverse=True)`. -/
def sortByValDesc (l : List (String × ℚ)) : List (String × ℚ) :=
  l.foldr sortIns []

/-- `reducer_topten`: for the target word, the loop re-assigns `sorted_dict`
and `max_terms` on every iteration, so only the **last** received distribution
survives; with no received distribution the names are unbound (`NameError`).
For any other word nothing is emitted. -/
def reducer_topten (word : String) (probs : List (List (String × ℚ))) :
    Except String (List (Nat × (String × ℚ))) :=
  if word = TARGET_WORD then
    match probs.getLast? with
    | none => Except.error "NameError"
    | some probdict =>
        let sorted_dict := sortByValDesc probdict
        let max_terms := if sorted_dict.length > 10 then 10 else sorted_dict.length
        Except.ok ((List.range max_terms).map
          (fun rank => (rank + 1, sorted_dict.getD rank ("", 0))))
  else Except.ok []

/-! ### Spec-side definitions (used to state the claims, not taken from the
source) -/

/-- Lexicographic (code-point) comparison of character lists, the order in
which Python compares strings. -/
def charsLe : List Char → List Char → Bool
  | [], _ => true
  | _ :: _, [] => false
  | c :: cs, d :: ds =>
      if c.toNat < d.toNat then true
      else if d.toNat < c.toNat then false
      else charsLe cs ds

/-- `a <= b` on strings, lexicographically by code point. -/
def strLe (a b : String) : Bool := charsLe a.toList b.toList

/-- Modelled from the spec: the §4.4 ordering — probability descending with
ties broken by neighbour token in ascending lexicographic order. -/
def specIns (p : String × ℚ) : List (String × ℚ) → List (String × ℚ)
  | [] => [p]
  | q :: qs =>
      if p.2 > q.2 ∨ (p.2 = q.2 ∧ strLe p.1 q.1 = true) then p :: q :: qs
      else q :: specIns p qs

/-- Modelled from the spec: sort neighbour entries by probability descending,
ties by neighbour token ascending. -/
def specSort (l : List (String × ℚ)) : List (String × ℚ) :=
  l.foldr specIns []

/-- Modelled from the spec: the ranked list §4.4 requires for one merged
distribution — `K = min(10, number of distinct neighbors)` entries of the
tie-broken sort, as `(rank, (neighbor, probability))` with dense ranks. -/
def specRanked (d : List (String × ℚ)) : List (Nat × (String × ℚ)) :=
  let s := specSort d
  let K := if s.length > 10 then 10 else s.length
  (List.range K).map (fun r => (r + 1, s.getD r ("", 0)))

/-- Modelled from the spec: §4.4 "merge the received distributions with the
same sum-then-normalize rule as §4.3" — sum the probabilities per neighbour,
then divide by the grand total. -/
def specMergeDists (ds : List (List (String × ℚ))) : List (String × ℚ) :=
  let m := ds.foldl (fun acc d => d.foldl (fun a kv => dictIncrQ a kv.1 kv.2) acc) []
  mapVal (fun v => v / (m.map Prod.snd).sum) m

/-- Sum of the probabilities of a distribution. -/
def sumProbs (d : List (String × ℚ)) : ℚ := (d.map Prod.snd).sum

/-! ### The stripes a shuffle delivers for one key -/

/-- The stripes whose key is `w` among a list of emitted `(token, stripe)`
pairs. -/
def stripesFor (w : String) (prs : List (String × Stripe)) : List Stripe :=
  (prs.filter (fun p => p.1 == w)).map Prod.snd

/-- All stripes the mapper emits for key `w` over a corpus of token
sequences: exactly the multiset the shuffle delivers to `reducer` for `w`. -/
def corpusStripes (w : String) (recs : List (List String)) : List Stripe :=
  (recs.map (fun ts => stripesFor w (mapperTokens ts))).flatten

/-- The merged `Counter` the reducer builds for key `w` over a corpus. -/
def corpusMerged (w : String) (recs : List (List String)) : List (String × Nat) :=
  mergeAll (corpusStripes w recs)

/-- `total_w` for key `w` over a corpus: the merged SELF count. -/
def corpusTotal (w : String) (recs : List (List String)) : Nat :=
  dictGet (corpusMerged w recs) DUMCHAR 0

/-- The distribution the reducer emits for key `w` over a corpus. -/
def corpusDist (w : String) (recs : List (List String)) : List (String × ℚ) :=
  reducerDist (corpusMerged w recs)

/-! ### Auxiliary quantities used to state and prove the invariants -/

/-- The total count a dict's *entries* carry for key `k` (equal to
`dictGet d k 0` whenever the keys of `d` are distinct, which holds for every
dict the program builds). -/
def entriesVal (d : List (String × Nat)) (k : String) : Nat :=
  (d.map (fun kv => if kv.1 = k then kv.2 else 0)).sum

/-- Sum of all non-SELF counts of a counts dict (for a stripe: how many
bigram successors it recorded). -/
def neighborTotal (d : List (String × Nat)) : Nat :=
  ((d.filter (fun kv => !(kv.1 == DUMCHAR))).map Prod.snd).sum

/-- The sum of the SELF-marker counts over all stripes emitted for `w`. -/
def selfSumFor (w : String) (prs : List (String × Stripe)) : Nat :=
  ((stripesFor w prs).map (fun s => dictGet s DUMCHAR 0)).sum

/-- The number of occurrences of `w` in `ts` that have a successor (all of
them except a final occurrence in the last position). -/
def sucCount (ts : List String) (w : String) : Nat := ts.dropLast.count w

/-- `buildStripe` increments the count of `line[j]` exactly when this
predicate holds, paired with `line[j] = q`. -/
def bpred (line : List String) (word : Nat) (q : String) (j : Nat) : Bool :=
  (line.getD (j - 1) "" == line.getD word "") && (line.getD j "" == q)

/-- `buildStripe` adds a non-SELF count exactly when this predicate holds. -/
def bpredNT (line : List String) (word : Nat) (j : Nat) : Bool :=
  (line.getD (j - 1) "" == line.getD word "") && !(line.getD j "" == DUMCHAR)

/-- Position `j` follows an occurrence of `w` (the successor predicate). -/
def sucB (ts : List String) (w : String) (j : Nat) : Bool :=
  ts.getD (j - 1) "" == w

/-- The token at position `i` is `w`. -/
def occB (ts : List String) (w : String) (i : Nat) : Bool :=
  ts.getD i "" == w

/-- Position `i` is the first occurrence of its token value, the condition
`line[word] not in processed` of the source. -/
def firstOccB (ts : List String) (i : Nat) : Bool :=
  !((List.range i).any (fun j => ts.getD j "" == ts.getD i ""))

/-! ## Lemmas about the dict operations -/

theorem dictGet_nil {α : Type} (k : String) (dflt : α) :
    dictGet [] k dflt = dflt := rfl

theorem dictGet_cons {α : Type} (k1 : String) (v1 : α) (t : List (String × α))
    (k : String) (dflt : α) :
    dictGet ((k1, v1) :: t) k dflt = if k1 = k then v1 else dictGet t k dflt := rfl

theorem dictIncr_nil (k : String) (v : Nat) : dictIncr [] k v = [(k, v)] := by
  simp [dictIncr, dictGet_nil, dictSet]

theorem dictIncr_cons (k1 : String) (v1 : Nat) (t : List (String × Nat))
    (k : String) (v : Nat) :
    dictIncr ((k1, v1) :: t) k v =
      if k1 = k then (k1, v1 + v) :: t else (k1, v1) :: dictIncr t k v := by
  by_cases h : k1 = k
  · simp [dictIncr, dictGet_cons, dictSet, h]
  · simp [dictIncr, dictGet_cons, dictSet, h]

theorem dictIncr_ne_nil (d : List (String × Nat)) (k : String) (v : Nat) :
    dictIncr d k v ≠ [] := by
  cases d with
  | nil => simp [dictIncr_nil]
  | cons kv t =>
      rw [dictIncr_cons]
      split <;> simp

theorem dictGet_dictIncr (d : List (String × Nat)) (k : String) (v : Nat) (q : String) :
    dictGet (dictIncr d k v) q 0 = dictGet d q 0 + if k = q then v else 0 := by
  induction d with
  | nil =>
      rw [dictIncr_nil, dictGet_cons, dictGet_nil]
      split_ifs <;> simp_all
  | cons kv t ih =>
      obtain ⟨k1, v1⟩ := kv
      rw [dictIncr_cons]
      by_cases h : k1 = k
      · subst h
        rw [if_pos rfl, dictGet_cons, dictGet_cons]
        by_cases h' : k1 = q
        · subst h'
          simp
        · simp [h']
      · rw [if_neg h, dictGet_cons, dictGet_cons, ih]
        by_cases h' : k1 = q
        · subst h'
          have hk : ¬ (k = k1) := fun hkq => h hkq.symm
          simp [hk]
        · simp [h']

theorem entriesVal_nil (k : String) : entriesVal [] k = 0 := rfl

theorem entriesVal_cons (k1 : String) (v1 : Nat) (t : List (String × Nat)) (k : String) :
    entriesVal ((k1, v1) :: t) k = (if k1 = k then v1 else 0) + entriesVal t k := by
  simp [entriesVal]

theorem entriesVal_dictIncr (d : List (String × Nat)) (k : String) (v : Nat) (q : String) :
    entriesVal (dictIncr d k v) q = entriesVal d q + if k = q then v else 0 := by
  induction d with
  | nil =>
      rw [dictIncr_nil, entriesVal_cons, entriesVal_nil]
      split_ifs <;> simp_all
  | cons kv t ih =>
      obtain ⟨k1, v1⟩ := kv
      rw [dictIncr_cons]
      by_cases h : k1 = k
      · subst h
        rw [if_pos rfl, entriesVal_cons, entriesVal_cons]
        split_ifs with h' <;> omega
      · rw [if_neg h, entriesVal_cons, entriesVal_cons, ih]
        omega

theorem dictGet_le_entriesVal (d : List (String × Nat)) (k : String) :
    dictGet d k 0 ≤ entriesVal d k := by
  induction d with
  | nil => simp [dictGet_nil, entriesVal_nil]
  | cons kv t ih =>
      obtain ⟨k1, v1⟩ := kv
      rw [dictGet_cons, entriesVal_cons]
      split_ifs with h <;> omega

theorem entriesVal_eq_zero_of_ne (d : List (String × Nat)) (k : String)
    (h : ∀ kv ∈ d, kv.1 ≠ k) : entriesVal d k = 0 := by
  induction d with
  | nil => rfl
  | cons kv t ih =>
      obtain ⟨k1, v1⟩ := kv
      rw [entriesVal_cons, ih (fun kv hkv => h kv (List.mem_cons_of_mem _ hkv))]
      have : k1 ≠ k := h (k1, v1) (List.mem_cons_self _ _)
      simp [this]

theorem neighborTotal_nil : neighborTotal [] = 0 := rfl

theorem neighborTotal_cons (k1 : String) (v1 : Nat) (t : List (String × Nat)) :
    neighborTotal ((k1, v1) :: t) =
      (if k1 = DUMCHAR then 0 else v1) + neighborTotal t := by
  by_cases h : k1 = DUMCHAR <;> simp [neighborTotal, h]

theorem neighborTotal_dictIncr (d : List (String × Nat)) (k : String) (v : Nat) :
    neighborTotal (dictIncr d k v) =
      neighborTotal d + if k = DUMCHAR then 0 else v := by
  induction d with
  | nil =>
      rw [dictIncr_nil, neighborTotal_cons, neighborTotal_nil]
      omega
  | cons kv t ih =>
      obtain ⟨k1, v1⟩ := kv
      rw [dictIncr_cons]
      by_cases h : k1 = k
      · subst h
        rw [if_pos rfl, neighborTotal_cons, neighborTotal_cons]
        split_ifs with h' <;> omega
      · rw [if_neg h, neighborTotal_cons, neighborTotal_cons, ih]
        omega

theorem entriesVal_le_neighborTotal (d : List (String × Nat)) (k : String)
    (hk : k ≠ DUMCHAR) : entriesVal d k ≤ neighborTotal d := by
  induction d with
  | nil => simp [entriesVal_nil, neighborTotal_nil]
  | cons kv t ih =>
      obtain ⟨k1, v1⟩ := kv
      rw [entriesVal_cons, neighborTotal_cons]
      have h2 := ih
      by_cases h : k1 = k
      · subst h
        simp only [if_neg hk, eq_self_iff_true, if_true]
        omega
      · rw [if_neg h]
        split_ifs with h' <;> omega

/-! ## Lemmas about merging stripes (the first loop of `reducer`) -/

theorem dictGet_mergeStripe (s : Stripe) (acc : List (String × Nat)) (k : String) :
    dictGet (mergeStripe acc s) k 0 = dictGet acc k 0 + entriesVal s k := by
  induction s generalizing acc with
  | nil => simp [mergeStripe, entriesVal_nil]
  | cons kv t ih =>
      obtain ⟨k1, v1⟩ := kv
      show dictGet (mergeStripe (dictIncr acc k1 v1) t) k 0 = _
      rw [ih, dictGet_dictIncr, entriesVal_cons]
      split_ifs <;> omega

theorem entriesVal_mergeStripe (s : Stripe) (acc : List (String × Nat)) (k : String) :
    entriesVal (mergeStripe acc s) k = entriesVal acc k + entriesVal s k := by
  induction s generalizing acc with
  | nil => simp [mergeStripe, entriesVal_nil]
  | cons kv t ih =>
      obtain ⟨k1, v1⟩ := kv
      show entriesVal (mergeStripe (dictIncr acc k1 v1) t) k = _
      rw [ih, entriesVal_dictIncr, entriesVal_cons]
      omega

theorem neighborTotal_mergeStripe (s : Stripe) (acc : List (String × Nat)) :
    neighborTotal (mergeStripe acc s) = neighborTotal acc + neighborTotal s := by
  induction s generalizing acc with
  | nil => simp [mergeStripe, neighborTotal_nil]
  | cons kv t ih =>
      obtain ⟨k1, v1⟩ := kv
      show neighborTotal (mergeStripe (dictIncr acc k1 v1) t) = _
      rw [ih, neighborTotal_dictIncr, neighborTotal_cons]
      omega

theorem dictGet_foldl_mergeStripe (ss : List Stripe) (acc : List (String × Nat)) (k : String) :
    dictGet (ss.foldl mergeStripe acc) k 0 =
      dictGet acc k 0 + (ss.map (fun s => entriesVal s k)).sum := by
  induction ss generalizing acc with
  | nil => simp
  | cons s t ih =>
      rw [List.foldl_cons, ih, dictGet_mergeStripe]
      simp [Nat.add_assoc]

theorem dictGet_mergeAll (ss : List Stripe) (k : String) :
    dictGet (mergeAll ss) k 0 = (ss.map (fun s => entriesVal s k)).sum := by
  rw [mergeAll, dictGet_foldl_mergeStripe, dictGet_nil, Nat.zero_add]

theorem entriesVal_foldl_mergeStripe (ss : List Stripe) (acc : List (String × Nat)) (k : String) :
    entriesVal (ss.foldl mergeStripe acc) k =
      entriesVal acc k + (ss.map (fun s => entriesVal s k)).sum := by
  induction ss generalizing acc with
  | nil => simp
  | cons s t ih =>
      rw [List.foldl_cons, ih, entriesVal_mergeStripe]
      simp [Nat.add_assoc]

theorem entriesVal_mergeAll (ss : List Stripe) (k : String) :
    entriesVal (mergeAll ss) k = (ss.map (fun s => entriesVal s k)).sum := by
  rw [mergeAll, entriesVal_foldl_mergeStripe, entriesVal_nil, Nat.zero_add]

theorem neighborTotal_foldl_mergeStripe (ss : List Stripe) (acc : List (String × Nat)) :
    neighborTotal (ss.foldl mergeStripe acc) =
      neighborTotal acc + (ss.map neighborTotal).sum := by
  induction ss generalizing acc with
  | nil => simp
  | cons s t ih =>
      rw [List.foldl_cons, ih, neighborTotal_mergeStripe]
      simp [Nat.add_assoc]

theorem neighborTotal_mergeAll (ss : List Stripe) :
    neighborTotal (mergeAll ss) = (ss.map neighborTotal).sum := by
  rw [mergeAll, neighborTotal_foldl_mergeStripe, neighborTotal_nil, Nat.zero_add]

/-! ## Key membership and emptiness of the merged counter -/

theorem mem_keys_dictIncr (d : List (String × Nat)) (k : String) (v : Nat) (q : String) :
    q ∈ (dictIncr d k v).map Prod.fst ↔ q ∈ d.map Prod.fst ∨ q = k := by
  induction d with
  | nil => simp [dictIncr_nil, eq_comm]
  | cons kv t ih =>
      obtain ⟨k1, v1⟩ := kv
      rw [dictIncr_cons]
      split_ifs with h
      · subst h
        simp only [List.map_cons, List.mem_cons]
        constructor
        · rintro (rfl | hq)
          · exact Or.inl (Or.inl rfl)
          · exact Or.inl (Or.inr hq)
        · rintro ((rfl | hq) | rfl)
          · exact Or.inl rfl
          · exact Or.inr hq
          · exact Or.inl rfl
      · simp only [List.map_cons, List.mem_cons, ih]
        tauto

theorem mem_keys_mergeStripe (s : Stripe) (acc : List (String × Nat)) (q : String) :
    q ∈ (mergeStripe acc s).map Prod.fst ↔
      q ∈ acc.map Prod.fst ∨ q ∈ s.map Prod.fst := by
  induction s generalizing acc with
  | nil => simp [mergeStripe]
  | cons kv t ih =>
      obtain ⟨k1, v1⟩ := kv
      show q ∈ (mergeStripe (dictIncr acc k1 v1) t).map Prod.fst ↔ _
      rw [ih, mem_keys_dictIncr]
      simp only [List.map_cons, List.mem_cons]
      tauto

theorem mem_keys_mergeAll (ss : List Stripe) (q : String) :
    q ∈ (mergeAll ss).map Prod.fst ↔ ∃ s ∈ ss, q ∈ s.map Prod.fst := by
  have aux : ∀ (t : List Stripe) (acc : List (String × Nat)),
      q ∈ (t.foldl mergeStripe acc).map Prod.fst ↔
        q ∈ acc.map Prod.fst ∨ ∃ s ∈ t, q ∈ s.map Prod.fst := by
    intro t
    induction t with
    | nil => simp
    | cons s u ih =>
        intro acc
        rw [List.foldl_cons, ih, mem_keys_mergeStripe]
        simp only [List.mem_cons]
        constructor
        · rintro ((ha | hs) | ⟨x, hx, hq⟩)
          · exact Or.inl ha
          · exact Or.inr ⟨s, Or.inl rfl, hs⟩
          · exact Or.inr ⟨x, Or.inr hx, hq⟩
        · rintro (ha | ⟨x, (rfl | hx), hq⟩)
          · exact Or.inl (Or.inl ha)
          · exact Or.inl (Or.inr hq)
          · exact Or.inr ⟨x, hx, hq⟩
  rw [mergeAll, aux]
  simp

theorem mergeStripe_eq_nil_iff (s : Stripe) (acc : List (String × Nat)) :
    mergeStripe acc s = [] ↔ acc = [] ∧ s = [] := by
  induction s generalizing acc with
  | nil => simp [mergeStripe]
  | cons kv t ih =>
      obtain ⟨k1, v1⟩ := kv
      show mergeStripe (dictIncr acc k1 v1) t = [] ↔ _
      rw [ih]
      simp [dictIncr_ne_nil]

theorem mergeAll_eq_nil_iff (ss : List Stripe) :
    mergeAll ss = [] ↔ ∀ s ∈ ss, s = [] := by
  have aux : ∀ (t : List Stripe) (acc : List (String × Nat)),
      t.foldl mergeStripe acc = [] ↔ acc = [] ∧ ∀ s ∈ t, s = [] := by
    intro t
    induction t with
    | nil => simp
    | cons s u ih =>
        intro acc
        rw [List.foldl_cons, ih, mergeStripe_eq_nil_iff]
        simp only [List.mem_cons]
        constructor
        · rintro ⟨⟨ha, hs⟩, hu⟩
          exact ⟨ha, fun x hx => hx.elim (fun h => h ▸ hs) (hu x)⟩
        · rintro ⟨ha, h⟩
          exact ⟨⟨ha, h s (Or.inl rfl)⟩, fun x hx => h x (Or.inr hx)⟩
  rw [mergeAll, aux]
  simp

/-! ## Positivity of merged entry values -/

theorem dictIncr_val_ge_one (d : List (String × Nat)) (k : String) (v : Nat)
    (hd : ∀ kv ∈ d, 1 ≤ kv.2) (hv : 1 ≤ v) :
    ∀ kv ∈ dictIncr d k v, 1 ≤ kv.2 := by
  induction d with
  | nil =>
      rw [dictIncr_nil]
      intro kv hkv
      rcases List.mem_singleton.mp hkv with rfl
      exact hv
  | cons kv0 t ih =>
      obtain ⟨k1, v1⟩ := kv0
      rw [dictIncr_cons]
      have h1 : 1 ≤ v1 := hd (k1, v1) (List.mem_cons_self _ _)
      have ht : ∀ kv ∈ t, 1 ≤ kv.2 := fun kv hkv => hd kv (List.mem_cons_of_mem _ hkv)
      split_ifs with h
      · intro kv hkv
        rcases List.mem_cons.mp hkv with rfl | hkv
        · exact Nat.le_add_right_of_le h1
        · exact ht kv hkv
      · intro kv hkv
        rcases List.mem_cons.mp hkv with rfl | hkv
        · exact h1
        · exact ih ht kv hkv

theorem mergeStripe_val_ge_one (s : Stripe) (acc : List (String × Nat))
    (hacc : ∀ kv ∈ acc, 1 ≤ kv.2) (hs : ∀ kv ∈ s, 1 ≤ kv.2) :
    ∀ kv ∈ mergeStripe acc s, 1 ≤ kv.2 := by
  induction s generalizing acc with
  | nil => exact hacc
  | cons kv0 t ih =>
      obtain ⟨k1, v1⟩ := kv0
      show ∀ kv ∈ mergeStripe (dictIncr acc k1 v1) t, 1 ≤ kv.2
      exact ih _
        (dictIncr_val_ge_one acc k1 v1 hacc (hs (k1, v1) (List.mem_cons_self _ _)))
        (fun kv hkv => hs kv (List.mem_cons_of_mem _ hkv))

theorem mergeAll_val_ge_one (ss : List Stripe)
    (h : ∀ s ∈ ss, ∀ kv ∈ s, 1 ≤ kv.2) :
    ∀ kv ∈ mergeAll ss, 1 ≤ kv.2 := by
  have aux : ∀ (t : List Stripe) (acc : List (String × Nat)),
      (∀ kv ∈ acc, 1 ≤ kv.2) → (∀ s ∈ t, ∀ kv ∈ s, 1 ≤ kv.2) →
        ∀ kv ∈ t.foldl mergeStripe acc, 1 ≤ kv.2 := by
    intro t
    induction t with
    | nil => intro acc hacc _; exact hacc
    | cons s u ih =>
        intro acc hacc ht
        rw [List.foldl_cons]
        exact ih _
          (mergeStripe_val_ge_one s acc hacc (ht s (List.mem_cons_self _ _)))
          (fun x hx => ht x (List.mem_cons_of_mem _ hx))
  exact aux ss [] (by simp) h

/-! ## Lemmas about `dictFind`, `mapVal` and `removeKey` -/

theorem dictFind_mapVal {α β : Type} (f : α → β) (d : List (String × α)) (q : String) :
    dictFind (mapVal f d) q = (dictFind d q).map f := by
  induction d with
  | nil => rfl
  | cons kv t ih =>
      obtain ⟨k1, v1⟩ := kv
      show dictFind ((k1, f v1) :: mapVal f t) q = _
      rw [dictFind, dictFind]
      split_ifs with h
      · rfl
      · exact ih

theorem removeKey_cons {α : Type} (k1 : String) (v1 : α) (t : List (String × α))
    (k : String) :
    removeKey ((k1, v1) :: t) k =
      if k1 = k then removeKey t k else (k1, v1) :: removeKey t k := by
  rw [removeKey, List.filter_cons]
  by_cases h : k1 = k <;> simp [h, removeKey]

theorem dictFind_removeKey_self {α : Type} (d : List (String × α)) (k : String) :
    dictFind (removeKey d k) k = none := by
  induction d with
  | nil => rfl
  | cons kv t ih =>
      obtain ⟨k1, v1⟩ := kv
      rw [removeKey_cons]
      by_cases h : k1 = k
      · rw [if_pos h]
        exact ih
      · rw [if_neg h, dictFind, if_neg h]
        exact ih

theorem dictFind_removeKey_ne {α : Type} (d : List (String × α)) (k q : String)
    (hq : q ≠ k) : dictFind (removeKey d k) q = dictFind d q := by
  induction d with
  | nil => rfl
  | cons kv t ih =>
      obtain ⟨k1, v1⟩ := kv
      rw [removeKey_cons]
      by_cases h : k1 = k
      · subst h
        rw [if_pos rfl, ih, dictFind, if_neg (fun h => hq h.symm)]
      · rw [if_neg h, dictFind, dictFind]
        by_cases h2 : k1 = q
        · rw [if_pos h2, if_pos h2]
        · rw [if_neg h2, if_neg h2]
          exact ih

theorem dictFind_eq_some_of_mem (d : List (String × Nat)) (q : String)
    (h : q ∈ d.map Prod.fst) : dictFind d q = some (dictGet d q 0) := by
  induction d with
  | nil => simp at h
  | cons kv t ih =>
      obtain ⟨k1, v1⟩ := kv
      rw [dictFind, dictGet_cons]
      split_ifs with h1
      · rfl
      · apply ih
        rcases List.mem_cons.mp h with rfl | hq
        · exact absurd rfl h1
        · exact hq

theorem dictFind_eq_none_of_not_mem {α : Type} (d : List (String × α)) (q : String)
    (h : q ∉ d.map Prod.fst) : dictFind d q = none := by
  induction d with
  | nil => rfl
  | cons kv t ih =>
      obtain ⟨k1, v1⟩ := kv
      rw [dictFind]
      simp only [List.map_cons, List.mem_cons] at h
      push_neg at h
      rw [if_neg (fun hh => h.1 hh.symm)]
      exact ih h.2

/-! ## Lemmas about `buildStripe` -/

theorem bpred_true (line : List String) (word : Nat) (q : String) (j : Nat)
    (hc : line.getD (j - 1) "" = line.getD word "") (hq : line.getD j "" = q) :
    bpred line word q j = true := by
  unfold bpred
  rw [beq_iff_eq.mpr hc, beq_iff_eq.mpr hq, Bool.and_self]

theorem bpred_false_left (line : List String) (word : Nat) (q : String) (j : Nat)
    (hc : ¬ line.getD (j - 1) "" = line.getD word "") :
    bpred line word q j = false := by
  unfold bpred
  rw [beq_eq_false_iff_ne.mpr hc, Bool.false_and]

theorem bpred_false_right (line : List String) (word : Nat) (q : String) (j : Nat)
    (hq : ¬ line.getD j "" = q) : bpred line word q j = false := by
  unfold bpred
  rw [beq_eq_false_iff_ne.mpr hq, Bool.and_false]

theorem bpredNT_true (line : List String) (word : Nat) (j : Nat)
    (hc : line.getD (j - 1) "" = line.getD word "")
    (hq : ¬ line.getD j "" = DUMCHAR) : bpredNT line word j = true := by
  unfold bpredNT
  rw [beq_iff_eq.mpr hc, beq_eq_false_iff_ne.mpr hq, Bool.not_false, Bool.and_self]

theorem bpredNT_false_left (line : List String) (word : Nat) (j : Nat)
    (hc : ¬ line.getD (j - 1) "" = line.getD word "") :
    bpredNT line word j = false := by
  unfold bpredNT
  rw [beq_eq_false_iff_ne.mpr hc, Bool.false_and]

theorem bpredNT_false_right (line : List String) (word : Nat) (j : Nat)
    (hq : line.getD j "" = DUMCHAR) : bpredNT line word j = false := by
  unfold bpredNT
  rw [beq_iff_eq.mpr hq, Bool.not_true, Bool.and_false]

theorem buildStripe_foldl_dictGet (line : List String) (word : Nat) (q : String)
    (js : List Nat) : ∀ st : List (String × Nat),
    dictGet (js.foldl (fun st j =>
        if line.getD (j - 1) "" = line.getD word "" then
          dictIncr st (line.getD j "") 1
        else st) st) q 0 =
      dictGet st q 0 + js.countP (bpred line word q) := by
  induction js with
  | nil => intro st; simp
  | cons j js ih =>
      intro st
      rw [List.foldl_cons, ih, List.countP_cons]
      by_cases hc : line.getD (j - 1) "" = line.getD word ""
      · rw [if_pos hc, dictGet_dictIncr]
        by_cases hq : line.getD j "" = q
        · rw [if_pos hq, bpred_true line word q j hc hq]
          simp only [eq_self_iff_true, if_true]
          omega
        · rw [if_neg hq, bpred_false_right line word q j hq]
          simp only [Bool.false_eq_true, if_false]
          omega
      · rw [if_neg hc, bpred_false_left line word q j hc]
        simp only [Bool.false_eq_true, if_false]
        omega

theorem buildStripe_foldl_entriesVal (line : List String) (word : Nat) (q : String)
    (js : List Nat) : ∀ st : List (String × Nat),
    entriesVal (js.foldl (fun st j =>
        if line.getD (j - 1) "" = line.getD word "" then
          dictIncr st (line.getD j "") 1
        else st) st) q =
      entriesVal st q + js.countP (bpred line word q) := by
  induction js with
  | nil => intro st; simp
  | cons j js ih =>
      intro st
      rw [List.foldl_cons, ih, List.countP_cons]
      by_cases hc : line.getD (j - 1) "" = line.getD word ""
      · rw [if_pos hc, entriesVal_dictIncr]
        by_cases hq : line.getD j "" = q
        · rw [if_pos hq, bpred_true line word q j hc hq]
          simp only [eq_self_iff_true, if_true]
          omega
        · rw [if_neg hq, bpred_false_right line word q j hq]
          simp only [Bool.false_eq_true, if_false]
          omega
      · rw [if_neg hc, bpred_false_left line word q j hc]
        simp only [Bool.false_eq_true, if_false]
        omega

theorem buildStripe_foldl_neighborTotal (line : List String) (word : Nat)
    (js : List Nat) : ∀ st : List (String × Nat),
    neighborTotal (js.foldl (fun st j =>
        if line.getD (j - 1) "" = line.getD word "" then
          dictIncr st (line.getD j "") 1
        else st) st) =
      neighborTotal st + js.countP (bpredNT line word) := by
  induction js with
  | nil => intro st; simp
  | cons j js ih =>
      intro st
      rw [List.foldl_cons, ih, List.countP_cons]
      by_cases hc : line.getD (j - 1) "" = line.getD word ""
      · rw [if_pos hc, neighborTotal_dictIncr]
        by_cases hq : line.getD j "" = DUMCHAR
        · rw [if_pos hq, bpredNT_false_right line word j hq]
          simp only [Bool.false_eq_true, if_false]
          omega
        · rw [if_neg hq, bpredNT_true line word j hc hq]
          simp only [eq_self_iff_true, if_true]
          omega
      · rw [if_neg hc, bpredNT_false_left line word j hc]
        simp only [Bool.false_eq_true, if_false]
        omega

theorem buildStripe_dictGet (line : List String) (word : Nat) (q : String) :
    dictGet (buildStripe line word) q 0 =
      (if DUMCHAR = q then 1 else 0) +
        (List.range' (word + 1) (line.length - (word + 1))).countP
          (bpred line word q) := by
  rw [buildStripe, buildStripe_foldl_dictGet]
  have hinit : dictGet [(DUMCHAR, 1)] q 0 = if DUMCHAR = q then 1 else 0 := by
    by_cases h : DUMCHAR = q <;> simp [dictGet_cons, dictGet_nil, h]
  rw [hinit]

theorem buildStripe_entriesVal (line : List String) (word : Nat) (q : String) :
    entriesVal (buildStripe line word) q =
      (if DUMCHAR = q then 1 else 0) +
        (List.range' (word + 1) (line.length - (word + 1))).countP
          (bpred line word q) := by
  rw [buildStripe, buildStripe_foldl_entriesVal]
  have hinit : entriesVal [(DUMCHAR, 1)] q = if DUMCHAR = q then 1 else 0 := by
    by_cases h : DUMCHAR = q <;> simp [entriesVal_cons, entriesVal_nil, h]
  rw [hinit]

theorem buildStripe_neighborTotal_raw (line : List String) (word : Nat) :
    neighborTotal (buildStripe line word) =
      (List.range' (word + 1) (line.length - (word + 1))).countP
        (bpredNT line word) := by
  rw [buildStripe, buildStripe_foldl_neighborTotal]
  have hinit : neighborTotal [(DUMCHAR, 1)] = 0 := by
    simp [neighborTotal_cons, neighborTotal_nil]
  rw [hinit, Nat.zero_add]

theorem getD_ne_DUMCHAR (line : List String) (hD : DUMCHAR ∉ line) (j : Nat)
    (hj : j < line.length) : line.getD j "" ≠ DUMCHAR := by
  rw [List.getD_eq_getElem _ _ hj]
  intro h
  exact hD (h ▸ List.getElem_mem hj)

theorem mem_range'_lt_length (line : List String) (word j : Nat)
    (hj : j ∈ List.range' (word + 1) (line.length - (word + 1))) :
    word + 1 ≤ j ∧ j < line.length := by
  have h := List.mem_range'_1.mp hj
  omega

theorem buildStripe_dictGet_DUMCHAR (line : List String) (word : Nat)
    (hD : DUMCHAR ∉ line) : dictGet (buildStripe line word) DUMCHAR 0 = 1 := by
  rw [buildStripe_dictGet, if_pos rfl]
  have hz : (List.range' (word + 1) (line.length - (word + 1))).countP
      (bpred line word DUMCHAR) = 0 := by
    apply List.countP_eq_zero.mpr
    intro j hj
    have hjl := (mem_range'_lt_length line word j hj).2
    rw [bpred_false_right line word DUMCHAR j (getD_ne_DUMCHAR line hD j hjl)]
    exact Bool.false_ne_true
  omega

theorem buildStripe_entriesVal_DUMCHAR (line : List String) (word : Nat)
    (hD : DUMCHAR ∉ line) : entriesVal (buildStripe line word) DUMCHAR = 1 := by
  rw [buildStripe_entriesVal, if_pos rfl]
  have hz : (List.range' (word + 1) (line.length - (word + 1))).countP
      (bpred line word DUMCHAR) = 0 := by
    apply List.countP_eq_zero.mpr
    intro j hj
    have hjl := (mem_range'_lt_length line word j hj).2
    rw [bpred_false_right line word DUMCHAR j (getD_ne_DUMCHAR line hD j hjl)]
    exact Bool.false_ne_true
  omega

theorem buildStripe_dictGet_DUMCHAR_ge_one (line : List String) (word : Nat) :
    1 ≤ dictGet (buildStripe line word) DUMCHAR 0 := by
  rw [buildStripe_dictGet, if_pos rfl]
  omega

theorem buildStripe_neighborTotal (line : List String) (word : Nat)
    (hD : DUMCHAR ∉ line) :
    neighborTotal (buildStripe line word) =
      (List.range' (word + 1) (line.length - (word + 1))).countP
        (sucB line (line.getD word "")) := by
  rw [buildStripe_neighborTotal_raw, List.countP_eq_length_filter,
      List.countP_eq_length_filter]
  congr 1
  apply List.filter_congr
  intro j hj
  have hjl := (mem_range'_lt_length line word j hj).2
  have h2 : (line.getD j "" == DUMCHAR) = false :=
    beq_eq_false_iff_ne.mpr (getD_ne_DUMCHAR line hD j hjl)
  unfold bpredNT sucB
  rw [h2, Bool.not_false, Bool.and_true]

theorem buildStripe_val_ge_one (line : List String) (word : Nat) :
    ∀ kv ∈ buildStripe line word, 1 ≤ kv.2 := by
  rw [buildStripe]
  have aux : ∀ (js : List Nat) (st : List (String × Nat)),
      (∀ kv ∈ st, 1 ≤ kv.2) →
      ∀ kv ∈ js.foldl (fun st j =>
          if line.getD (j - 1) "" = line.getD word "" then
            dictIncr st (line.getD j "") 1
          else st) st, 1 ≤ kv.2 := by
    intro js
    induction js with
    | nil => intro st hst; exact hst
    | cons j js ih =>
        intro st hst
        rw [List.foldl_cons]
        apply ih
        by_cases hc : line.getD (j - 1) "" = line.getD word ""
        · rw [if_pos hc]
          exact dictIncr_val_ge_one st _ 1 hst (le_refl 1)
        · rw [if_neg hc]
          exact hst
  exact aux _ _ (by simp)

/-! ## The pairs the mapper emits -/

theorem mapperAux_shape (line : List String) :
    ∀ (is : List Nat) (p : List String) (k : String) (s : Stripe),
      (k, s) ∈ mapperAux line p is →
      s = [(DUMCHAR, 1)] ∨ ∃ i, s = buildStripe line i := by
  intro is
  induction is with
  | nil =>
      intro p k s h
      simp [mapperAux] at h
  | cons i rest ih =>
      intro p k s h
      rw [mapperAux] at h
      by_cases hc : line.getD i "" ∈ p
      · rw [if_pos hc] at h
        rcases List.mem_cons.mp h with heq | h2
        · rw [Prod.ext_iff] at heq
          exact Or.inl heq.2
        · exact ih p k s h2
      · rw [if_neg hc] at h
        rcases List.mem_cons.mp h with heq | h2
        · rw [Prod.ext_iff] at heq
          exact Or.inr ⟨i, heq.2⟩
        · exact ih _ k s h2

theorem mapperAux_eq_map (ts : List String) :
    ∀ (c m : Nat) (p : List String),
      (∀ x, x ∈ p ↔ ∃ j, j < m ∧ ts.getD j "" = x) →
      mapperAux ts p (List.range' m c) =
        (List.range' m c).map (fun i =>
          (ts.getD i "", if firstOccB ts i then buildStripe ts i else [(DUMCHAR, 1)])) := by
  intro c
  induction c with
  | zero => intro m p _; rfl
  | succ c ih =>
      intro m p hp
      rw [List.range'_succ, List.map_cons]
      have hany : (ts.getD m "" ∈ p) ↔
          ((List.range m).any (fun j => ts.getD j "" == ts.getD m "") = true) := by
        rw [hp, List.any_eq_true]
        constructor
        · rintro ⟨j, hj, hx⟩
          exact ⟨j, List.mem_range.mpr hj, beq_iff_eq.mpr hx⟩
        · rintro ⟨j, hj, hx⟩
          exact ⟨j, List.mem_range.mp hj, beq_iff_eq.mp hx⟩
      rw [mapperAux]
      by_cases hc : ts.getD m "" ∈ p
      · rw [if_pos hc]
        have hfo : firstOccB ts m = false := by
          unfold firstOccB
          rw [hany.mp hc, Bool.not_true]
        rw [hfo]
        simp only [Bool.false_eq_true, if_false]
        congr 1
        apply ih (m + 1) p
        intro x
        constructor
        · intro hx
          obtain ⟨j, hj, hjx⟩ := (hp x).mp hx
          exact ⟨j, by omega, hjx⟩
        · rintro ⟨j, hj, hjx⟩
          by_cases hjm : j < m
          · exact (hp x).mpr ⟨j, hjm, hjx⟩
          · have hje : j = m := by omega
            subst hje
            exact hjx ▸ hc
      · rw [if_neg hc]
        have hb : ((List.range m).any (fun j => ts.getD j "" == ts.getD m "")) = false :=
          Bool.eq_false_iff.mpr (fun h => hc (hany.mpr h))
        have hfo : firstOccB ts m = true := by
          unfold firstOccB
          rw [hb, Bool.not_false]
        rw [hfo]
        simp only [eq_self_iff_true, if_true]
        congr 1
        apply ih (m + 1) (ts.getD m "" :: p)
        intro x
        rw [List.mem_cons]
        constructor
        · rintro (rfl | hx)
          · exact ⟨m, by omega, rfl⟩
          · obtain ⟨j, hj, hjx⟩ := (hp x).mp hx
            exact ⟨j, by omega, hjx⟩
        · rintro ⟨j, hj, hjx⟩
          by_cases hjm : j < m
          · exact Or.inr ((hp x).mpr ⟨j, hjm, hjx⟩)
          · have hje : j = m := by omega
            subst hje
            exact Or.inl hjx.symm

theorem mapperTokens_eq_map (ts : List String) :
    mapperTokens ts = (List.range ts.length).map (fun i =>
      (ts.getD i "", if firstOccB ts i then buildStripe ts i else [(DUMCHAR, 1)])) := by
  rw [mapperTokens, List.range_eq_range']
  exact mapperAux_eq_map ts ts.length 0 [] (by simp)

theorem stripesFor_mapperTokens (w : String) (ts : List String) :
    stripesFor w (mapperTokens ts) =
      ((List.range ts.length).filter (occB ts w)).map
        (fun i => if firstOccB ts i then buildStripe ts i else [(DUMCHAR, 1)]) := by
  rw [mapperTokens_eq_map, stripesFor, List.filter_map, List.map_map]
  rfl

/-! ## Counting occurrences via indices -/

theorem sum_map_filter_eq {α : Type} (g : α → Nat) (pb : α → Bool) (l : List α) :
    ((l.filter pb).map g).sum = (l.map (fun i => if pb i = true then g i else 0)).sum := by
  induction l with
  | nil => rfl
  | cons a t ih =>
      rw [List.filter_cons, List.map_cons, List.sum_cons]
      by_cases h : pb a = true
      · rw [if_pos h, List.map_cons, List.sum_cons, ih, if_pos h]
      · rw [if_neg h, ih, if_neg h, Nat.zero_add]

theorem sum_map_const_one {α : Type} (l : List α) (f : α → Nat)
    (h : ∀ x ∈ l, f x = 1) : (l.map f).sum = l.length := by
  induction l with
  | nil => rfl
  | cons a t ih =>
      rw [List.map_cons, List.sum_cons, h a (List.mem_cons_self _ _),
        ih (fun x hx => h x (List.mem_cons_of_mem _ hx)), List.length_cons]
      omega

theorem map_sum_congr {α : Type} (l : List α) (f g : α → Nat)
    (h : ∀ i ∈ l, f i = g i) : (l.map f).sum = (l.map g).sum := by
  induction l with
  | nil => rfl
  | cons a t ih =>
      rw [List.map_cons, List.map_cons, List.sum_cons, List.sum_cons,
        h a (List.mem_cons_self _ _),
        ih (fun x hx => h x (List.mem_cons_of_mem _ hx))]

theorem countP_range_take (ts : List String) (w : String) :
    ∀ m, m ≤ ts.length →
      (List.range m).countP (occB ts w) = (ts.take m).count w := by
  intro m
  induction m with
  | zero => intro _; simp
  | succ m ih =>
      intro hm
      have hm' : m < ts.length := by omega
      rw [List.range_succ, List.countP_append, ih (by omega), List.take_succ,
          List.count_append]
      congr 1
      rw [List.getElem?_eq_getElem hm']
      rw [List.countP_cons, List.countP_nil]
      show (0 + if occB ts w m = true then 1 else 0) = List.count w (some ts[m]).toList
      have hob : occB ts w m = (ts[m] == w) := by
        unfold occB
        rw [List.getD_eq_getElem _ _ hm']
      rw [hob, Option.toList_some, List.count_cons, List.count_nil]

theorem countP_range_count (ts : List String) (w : String) :
    (List.range ts.length).countP (occB ts w) = ts.count w := by
  rw [countP_range_take ts w ts.length (le_refl _), List.take_length]

theorem countP_range_dropLast (ts : List String) (w : String) :
    (List.range (ts.length - 1)).countP (occB ts w) = sucCount ts w := by
  rw [countP_range_take ts w (ts.length - 1) (by omega), sucCount,
    List.dropLast_eq_take]

/-! ## The SELF counts of the emitted stripes -/

theorem dictGet_dum_self : dictGet [(DUMCHAR, 1)] DUMCHAR 0 = 1 := by
  simp [dictGet_cons]

theorem entriesVal_dum_self : entriesVal [(DUMCHAR, 1)] DUMCHAR = 1 := by
  simp [entriesVal_cons, entriesVal_nil]

theorem neighborTotal_dum : neighborTotal [(DUMCHAR, 1)] = 0 := by
  simp [neighborTotal_cons, neighborTotal_nil]

theorem selfSumFor_mapperTokens (ts : List String) (w : String) (hD : DUMCHAR ∉ ts) :
    selfSumFor w (mapperTokens ts) = ts.count w := by
  rw [selfSumFor, stripesFor_mapperTokens, List.map_map]
  have h1 : ∀ i ∈ (List.range ts.length).filter (occB ts w),
      ((fun s => dictGet s DUMCHAR 0) ∘
        fun i => if firstOccB ts i then buildStripe ts i else [(DUMCHAR, 1)]) i = 1 := by
    intro i _
    show dictGet (if firstOccB ts i then buildStripe ts i else [(DUMCHAR, 1)]) DUMCHAR 0 = 1
    by_cases h : firstOccB ts i = true
    · rw [if_pos h]
      exact buildStripe_dictGet_DUMCHAR ts i hD
    · rw [if_neg h]
      exact dictGet_dum_self
  rw [sum_map_const_one _ _ h1, ← List.countP_eq_length_filter, countP_range_count]

theorem entriesValSelf_sum (ts : List String) (w : String) (hD : DUMCHAR ∉ ts) :
    ((stripesFor w (mapperTokens ts)).map (fun s => entriesVal s DUMCHAR)).sum =
      ts.count w := by
  rw [stripesFor_mapperTokens, List.map_map]
  have h1 : ∀ i ∈ (List.range ts.length).filter (occB ts w),
      ((fun s => entriesVal s DUMCHAR) ∘
        fun i => if firstOccB ts i then buildStripe ts i else [(DUMCHAR, 1)]) i = 1 := by
    intro i _
    show entriesVal (if firstOccB ts i then buildStripe ts i else [(DUMCHAR, 1)]) DUMCHAR = 1
    by_cases h : firstOccB ts i = true
    · rw [if_pos h]
      exact buildStripe_entriesVal_DUMCHAR ts i hD
    · rw [if_neg h]
      exact entriesVal_dum_self
  rw [sum_map_const_one _ _ h1, ← List.countP_eq_length_filter, countP_range_count]

/-! ## The neighbour counts of the emitted stripes -/

theorem sumNT_range (ts : List String) (w : String) (hD : DUMCHAR ∉ ts) :
    ∀ m, m ≤ ts.length →
      ((List.range m).map (fun i =>
          if occB ts w i = true then
            (if firstOccB ts i = true then neighborTotal (buildStripe ts i) else 0)
          else 0)).sum =
        if (List.range m).any (occB ts w) = true then
          (List.range' 1 (ts.length - 1)).countP (sucB ts w)
        else 0 := by
  intro m
  induction m with
  | zero => intro _; simp
  | succ m ih =>
      intro hm
      have hm' : m < ts.length := by omega
      rw [List.range_succ, List.map_append, List.sum_append, ih (by omega),
          List.any_append]
      simp only [List.map_cons, List.map_nil, List.sum_cons, List.sum_nil,
        List.any_cons, List.any_nil, Nat.add_zero, Bool.or_false]
      by_cases hocc : occB ts w m = true
      · have hw : ts.getD m "" = w := beq_iff_eq.mp hocc
        have hfun : (fun j => ts.getD j "" == ts.getD m "") = occB ts w := by
          funext j
          rw [hw]
          rfl
        by_cases hC : (List.range m).any (occB ts w) = true
        · have hfo : firstOccB ts m = false := by
            unfold firstOccB
            rw [hfun, hC, Bool.not_true]
          rw [hC, hocc, hfo]
          simp only [eq_self_iff_true, if_true, Bool.false_eq_true, if_false,
            Bool.true_or, Nat.add_zero]
        · have hCf : (List.range m).any (occB ts w) = false := Bool.eq_false_iff.mpr hC
          have hfo : firstOccB ts m = true := by
            unfold firstOccB
            rw [hfun, hCf, Bool.not_false]
          rw [hCf, hocc, hfo]
          simp only [eq_self_iff_true, if_true, Bool.false_eq_true, if_false,
            Bool.false_or, Nat.zero_add]
          -- goal: NT (buildStripe ts m) = countP (range' 1 (n-1)) (sucB ts w)
          rw [buildStripe_neighborTotal ts m hD, hw]
          have hlist : List.range' 1 (ts.length - 1) =
              List.range' 1 m ++ List.range' (m + 1) (ts.length - 1 - m) := by
            have happ := List.range'_append 1 m (ts.length - 1 - m) 1
            rw [show 1 + 1 * m = m + 1 by omega,
              show ts.length - 1 - m + m = ts.length - 1 by omega] at happ
            exact happ.symm
          rw [hlist, List.countP_append]
          have hz : (List.range' 1 m).countP (sucB ts w) = 0 := by
            apply List.countP_eq_zero.mpr
            intro j hj
            have hjm := List.mem_range'_1.mp hj
            intro hsuc
            apply hC
            apply List.any_eq_true.mpr
            refine ⟨j - 1, List.mem_range.mpr (by omega), ?_⟩
            exact hsuc
          rw [hz, Nat.zero_add,
            show ts.length - 1 - m = ts.length - (m + 1) by omega]
      · have hof : occB ts w m = false := Bool.eq_false_iff.mpr hocc
        rw [hof]
        simp only [Bool.false_eq_true, if_false, Nat.add_zero, Bool.or_false]

theorem sumNT_stripesFor (ts : List String) (w : String) (hD : DUMCHAR ∉ ts) :
    ((stripesFor w (mapperTokens ts)).map neighborTotal).sum = sucCount ts w := by
  rw [stripesFor_mapperTokens, List.map_map, sum_map_filter_eq]
  have hcong : ∀ i ∈ List.range ts.length,
      (if occB ts w i = true then
        (neighborTotal ∘
          fun i => if firstOccB ts i then buildStripe ts i else [(DUMCHAR, 1)]) i
      else 0) =
      (if occB ts w i = true then
        (if firstOccB ts i = true then neighborTotal (buildStripe ts i) else 0)
      else 0) := by
    intro i _
    by_cases h1 : occB ts w i = true
    · rw [if_pos h1, if_pos h1]
      show neighborTotal (if firstOccB ts i then buildStripe ts i else [(DUMCHAR, 1)]) = _
      by_cases h2 : firstOccB ts i = true
      · rw [if_pos h2, if_pos h2]
      · rw [if_neg h2, if_neg h2, neighborTotal_dum]
    · rw [if_neg h1, if_neg h1]
  rw [map_sum_congr _ _ _ hcong, sumNT_range ts w hD ts.length (le_refl _)]
  by_cases hA : (List.range ts.length).any (occB ts w) = true
  · rw [if_pos hA, List.range'_eq_map_range, List.countP_map]
    have hshift : (List.range (ts.length - 1)).countP (sucB ts w ∘ fun x => 1 + x) =
        (List.range (ts.length - 1)).countP (occB ts w) := by
      apply List.countP_congr
      intro x _
      show (sucB ts w (1 + x) = true) ↔ (occB ts w x = true)
      unfold sucB occB
      rw [show 1 + x - 1 = x by omega]
    rw [hshift, countP_range_dropLast]
  · rw [if_neg hA]
    have hw : w ∉ ts := by
      intro hmem
      obtain ⟨n, hn, he⟩ := List.mem_iff_getElem.mp hmem
      apply hA
      apply List.any_eq_true.mpr
      refine ⟨n, List.mem_range.mpr hn, ?_⟩
      unfold occB
      rw [List.getD_eq_getElem _ _ hn]
      exact beq_iff_eq.mpr he
    have hsc : sucCount ts w = 0 := by
      rw [sucCount, List.count_eq_zero]
      intro hmem
      exact hw ((List.dropLast_sublist ts).mem hmem)
    omega

/-! ## Corpus-level sums -/

theorem corpusTotal_eq (w : String) (recs : List (List String))
    (hD : ∀ ts ∈ recs, DUMCHAR ∉ ts) :
    corpusTotal w recs = (recs.map (fun ts => ts.count w)).sum := by
  rw [corpusTotal, corpusMerged, dictGet_mergeAll, corpusStripes,
    List.map_flatten, List.sum_flatten, List.map_map, List.map_map]
  apply map_sum_congr
  intro ts hts
  show ((stripesFor w (mapperTokens ts)).map (fun s => entriesVal s DUMCHAR)).sum =
    ts.count w
  exact entriesValSelf_sum ts w (hD ts hts)

theorem corpusNT_eq (w : String) (recs : List (List String))
    (hD : ∀ ts ∈ recs, DUMCHAR ∉ ts) :
    neighborTotal (corpusMerged w recs) =
      (recs.map (fun ts => sucCount ts w)).sum := by
  rw [corpusMerged, neighborTotal_mergeAll, corpusStripes,
    List.map_flatten, List.sum_flatten, List.map_map, List.map_map]
  apply map_sum_congr
  intro ts hts
  show ((stripesFor w (mapperTokens ts)).map neighborTotal).sum = sucCount ts w
  exact sumNT_stripesFor ts w (hD ts hts)

theorem corpusTotal_ge_one (w : String) (recs : List (List String))
    (hD : ∀ ts ∈ recs, DUMCHAR ∉ ts) (hw : ∃ ts ∈ recs, w ∈ ts) :
    1 ≤ corpusTotal w recs := by
  rw [corpusTotal_eq w recs hD]
  obtain ⟨ts, hts, hwts⟩ := hw
  have h1 : 0 < ts.count w := List.count_pos_iff.mpr hwts
  have h2 : ts.count w ∈ recs.map (fun ts => ts.count w) :=
    List.mem_map_of_mem _ hts
  have h3 := List.single_le_sum (fun x _ => Nat.zero_le x) _ h2
  omega

theorem corpusNT_le_total (w : String) (recs : List (List String))
    (hD : ∀ ts ∈ recs, DUMCHAR ∉ ts) :
    neighborTotal (corpusMerged w recs) ≤ corpusTotal w recs := by
  rw [corpusNT_eq w recs hD, corpusTotal_eq w recs hD]
  apply List.sum_le_sum
  intro ts _
  show sucCount ts w ≤ ts.count w
  rw [sucCount]
  exact (List.dropLast_sublist ts).count_le w

theorem corpus_key_le_NT (w : String) (recs : List (List String)) (q : String)
    (hq : q ≠ DUMCHAR) :
    dictGet (corpusMerged w recs) q 0 ≤ neighborTotal (corpusMerged w recs) :=
  le_trans (dictGet_le_entriesVal _ q) (entriesVal_le_neighborTotal _ q hq)

/-! ## The stripes emitted for a key over a corpus are mapper stripes -/

theorem mapperTokens_stripe_shape (ts : List String) (k : String) (s : Stripe)
    (h : (k, s) ∈ mapperTokens ts) :
    s = [(DUMCHAR, 1)] ∨ ∃ i, s = buildStripe ts i :=
  mapperAux_shape ts (List.range ts.length) [] k s h

theorem mapper_stripe_self_ge_one (ts : List String) (k : String) (s : Stripe)
    (h : (k, s) ∈ mapperTokens ts) : 1 ≤ dictGet s DUMCHAR 0 := by
  rcases mapperTokens_stripe_shape ts k s h with rfl | ⟨i, rfl⟩
  · rw [dictGet_dum_self]
  · exact buildStripe_dictGet_DUMCHAR_ge_one ts i

theorem mapper_stripe_val_ge_one (ts : List String) (k : String) (s : Stripe)
    (h : (k, s) ∈ mapperTokens ts) : ∀ kv ∈ s, 1 ≤ kv.2 := by
  rcases mapperTokens_stripe_shape ts k s h with rfl | ⟨i, rfl⟩
  · intro kv hkv
    rcases List.mem_singleton.mp hkv with rfl
    exact le_refl 1
  · exact buildStripe_val_ge_one ts i

theorem corpusStripes_mem (w : String) (recs : List (List String)) (s : Stripe)
    (hs : s ∈ corpusStripes w recs) :
    ∃ ts ∈ recs, (w, s) ∈ mapperTokens ts := by
  rw [corpusStripes] at hs
  obtain ⟨l, hl, hsl⟩ := List.mem_flatten.mp hs
  obtain ⟨ts, hts, rfl⟩ := List.mem_map.mp hl
  rw [stripesFor] at hsl
  obtain ⟨p, hp, hps⟩ := List.mem_map.mp hsl
  have hpf := List.mem_filter.mp hp
  have hkey : p.1 = w := by
    have := hpf.2
    simpa using this
  refine ⟨ts, hts, ?_⟩
  have : (p.1, p.2) ∈ mapperTokens ts := by
    rw [Prod.mk.eta]
    exact hpf.1
  rw [hkey, hps] at this
  exact this

theorem corpusMerged_val_ge_one (w : String) (recs : List (List String)) :
    ∀ kv ∈ corpusMerged w recs, 1 ≤ kv.2 := by
  apply mergeAll_val_ge_one
  intro s hs
  obtain ⟨ts, _, hts⟩ := corpusStripes_mem w recs s hs
  exact mapper_stripe_val_ge_one ts w s hts

theorem mem_val_le_entriesVal (d : List (String × Nat)) (kv : String × Nat)
    (h : kv ∈ d) : kv.2 ≤ entriesVal d kv.1 := by
  induction d with
  | nil => simp at h
  | cons a t ih =>
      obtain ⟨k1, v1⟩ := a
      rw [entriesVal_cons]
      rcases List.mem_cons.mp h with rfl | hkv
      · rw [if_pos rfl]
        omega
      · have := ih hkv
        omega

/-! ## The reducer as an `if` -/

theorem reducer_eq (w : String) (ss : List Stripe) :
    reducer w ss =
      if mergeAll ss ≠ [] ∧ dictGet (mergeAll ss) DUMCHAR 0 = 0 then
        Except.error "ZeroDivisionError"
      else Except.ok (w, reducerDist (mergeAll ss)) := rfl

theorem reducer_ok_of_total_pos (w : String) (ss : List Stripe)
    (h : 1 ≤ dictGet (mergeAll ss) DUMCHAR 0) :
    reducer w ss = Except.ok (w, reducerDist (mergeAll ss)) := by
  rw [reducer_eq]
  rw [if_neg (fun hcon => by omega)]

/-! ## Sums and membership of the emitted distribution -/

theorem sumProbs_removeKey_mapVal (d : List (String × Nat)) (t : ℚ) :
    sumProbs (removeKey (mapVal (fun (v : Nat) => (v : ℚ) / t) d) DUMCHAR) =
      (neighborTotal d : ℚ) / t := by
  induction d with
  | nil =>
      rw [neighborTotal_nil]
      simp [sumProbs, removeKey, mapVal]
  | cons kv rest ih =>
      obtain ⟨k1, v1⟩ := kv
      show sumProbs (removeKey
          ((k1, (v1 : ℚ) / t) :: mapVal (fun (v : Nat) => (v : ℚ) / t) rest) DUMCHAR) =
        (neighborTotal ((k1, v1) :: rest) : ℚ) / t
      rw [removeKey_cons, neighborTotal_cons]
      by_cases h : k1 = DUMCHAR
      · rw [if_pos h, ih, if_pos h, Nat.zero_add]
      · rw [if_neg h, if_neg h]
        rw [sumProbs, List.map_cons, List.sum_cons]
        rw [show (List.map Prod.snd (removeKey (mapVal (fun (v : Nat) => (v : ℚ) / t) rest) DUMCHAR)).sum = sumProbs (removeKey (mapVal (fun (v : Nat) => (v : ℚ) / t) rest) DUMCHAR) from rfl]
        rw [ih, Nat.cast_add, div_add_div_same]

theorem sumProbs_reducerDist (result : List (String × Nat)) :
    sumProbs (reducerDist result) =
      (neighborTotal result : ℚ) / ((dictGet result DUMCHAR 0 : Nat) : ℚ) :=
  sumProbs_removeKey_mapVal result _

theorem mem_reducerDist (result : List (String × Nat)) (p : String × ℚ)
    (hp : p ∈ reducerDist result) :
    ∃ kv ∈ result, kv.1 ≠ DUMCHAR ∧
      p = (kv.1, (kv.2 : ℚ) / ((dictGet result DUMCHAR 0 : Nat) : ℚ)) := by
  rw [reducerDist, removeKey] at hp
  obtain ⟨hp1, hp2⟩ := List.mem_filter.mp hp
  rw [mapVal] at hp1
  obtain ⟨kv, hkv, hkv2⟩ := List.mem_map.mp hp1
  refine ⟨kv, hkv, ?_, hkv2.symm⟩
  intro hkd
  rw [← hkv2] at hp2
  simp [hkd] at hp2

/-! ## The two sort orders agree when all probabilities are distinct -/

theorem sortIns_cons (p q : String × ℚ) (l : List (String × ℚ)) :
    sortIns p (q :: l) = if p.2 ≥ q.2 then p :: q :: l else q :: sortIns p l := rfl

theorem specIns_cons (p q : String × ℚ) (l : List (String × ℚ)) :
    specIns p (q :: l) =
      if p.2 > q.2 ∨ (p.2 = q.2 ∧ strLe p.1 q.1 = true) then p :: q :: l
      else q :: specIns p l := rfl

theorem mem_specIns (p q : String × ℚ) (l : List (String × ℚ)) :
    q ∈ specIns p l ↔ q = p ∨ q ∈ l := by
  induction l with
  | nil => simp [specIns]
  | cons a t ih =>
      rw [specIns_cons]
      split_ifs with h
      · simp only [List.mem_cons]
      · simp only [List.mem_cons, ih]
        tauto

theorem mem_specSort (q : String × ℚ) (l : List (String × ℚ)) :
    q ∈ specSort l ↔ q ∈ l := by
  induction l with
  | nil => simp [specSort]
  | cons a t ih =>
      show q ∈ specIns a (specSort t) ↔ _
      rw [mem_specIns, List.mem_cons, ih]

theorem sortIns_eq_specIns (p : String × ℚ) (m : List (String × ℚ))
    (h : ∀ q ∈ m, p.2 ≠ q.2) : sortIns p m = specIns p m := by
  induction m with
  | nil => rfl
  | cons q t ih =>
      rw [sortIns_cons, specIns_cons]
      have hq := h q (List.mem_cons_self _ _)
      by_cases hgt : p.2 > q.2
      · rw [if_pos (le_of_lt hgt), if_pos (Or.inl hgt)]
      · have hlt : p.2 < q.2 := lt_of_le_of_ne (le_of_not_lt hgt) hq
        rw [if_neg (not_le_of_lt hlt),
          if_neg (by
            rintro (hc | ⟨hc, -⟩)
            · exact hgt hc
            · exact hq hc),
          ih (fun x hx => h x (List.mem_cons_of_mem _ hx))]

theorem sortByValDesc_eq_specSort (l : List (String × ℚ))
    (h : l.Pairwise (fun a b => a.2 ≠ b.2)) : sortByValDesc l = specSort l := by
  induction l with
  | nil => rfl
  | cons a t ih =>
      obtain ⟨h1, h2⟩ := List.pairwise_cons.mp h
      show sortIns a (sortByValDesc t) = specIns a (specSort t)
      rw [ih h2]
      exact sortIns_eq_specIns a (specSort t)
        (fun q hq => h1 q ((mem_specSort q t).mp hq))

/-! ## Permutation invariance of the merge -/

theorem mergeAll_perm_dictGet (ss₁ ss₂ : List Stripe) (hp : ss₁.Perm ss₂) (k : String) :
    dictGet (mergeAll ss₁) k 0 = dictGet (mergeAll ss₂) k 0 := by
  rw [dictGet_mergeAll, dictGet_mergeAll]
  exact (hp.map (fun s => entriesVal s k)).sum_eq

theorem mergeAll_perm_keys (ss₁ ss₂ : List Stripe) (hp : ss₁.Perm ss₂) (q : String) :
    q ∈ (mergeAll ss₁).map Prod.fst ↔ q ∈ (mergeAll ss₂).map Prod.fst := by
  rw [mem_keys_mergeAll, mem_keys_mergeAll]
  constructor
  · rintro ⟨s, hs, hq⟩
    exact ⟨s, hp.mem_iff.mp hs, hq⟩
  · rintro ⟨s, hs, hq⟩
    exact ⟨s, hp.mem_iff.mpr hs, hq⟩

theorem mergeAll_perm_nil (ss₁ ss₂ : List Stripe) (hp : ss₁.Perm ss₂) :
    mergeAll ss₁ = [] ↔ mergeAll ss₂ = [] := by
  rw [mergeAll_eq_nil_iff, mergeAll_eq_nil_iff]
  constructor
  · intro h s hs
    exact h s (hp.mem_iff.mpr hs)
  · intro h s hs
    exact h s (hp.mem_iff.mp hs)

theorem reducerDist_perm_find (ss₁ ss₂ : List Stripe) (hp : ss₁.Perm ss₂) (q : String) :
    dictFind (reducerDist (mergeAll ss₁)) q =
      dictFind (reducerDist (mergeAll ss₂)) q := by
  by_cases hq : q = DUMCHAR
  · subst hq
    rw [reducerDist, reducerDist, dictFind_removeKey_self, dictFind_removeKey_self]
  · rw [reducerDist, reducerDist, dictFind_removeKey_ne _ _ _ hq,
      dictFind_removeKey_ne _ _ _ hq, dictFind_mapVal, dictFind_mapVal]
    have htot : ((dictGet (mergeAll ss₁) DUMCHAR 0 : Nat) : ℚ) =
        ((dictGet (mergeAll ss₂) DUMCHAR 0 : Nat) : ℚ) := by
      rw [mergeAll_perm_dictGet ss₁ ss₂ hp DUMCHAR]
    by_cases hm : q ∈ (mergeAll ss₁).map Prod.fst
    · rw [dictFind_eq_some_of_mem _ _ hm,
        dictFind_eq_some_of_mem _ _ ((mergeAll_perm_keys ss₁ ss₂ hp q).mp hm),
        Option.map_some', Option.map_some',
        mergeAll_perm_dictGet ss₁ ss₂ hp q, htot]
    · rw [dictFind_eq_none_of_not_mem _ _ hm,
        dictFind_eq_none_of_not_mem _ _
          (fun h => hm ((mergeAll_perm_keys ss₁ ss₂ hp q).mpr h)),
        Option.map_none', Option.map_none']

/-! ## The claims -/

/-- C5: for every token sequence (in which the reserved SELF marker does not
occur as a token, as the tokenizer guarantees) and every token value `w`, the
sum of the SELF-marker counts over all stripes the mapper emits with key `w`
equals the number of occurrences of `w` in the sequence. -/
theorem claim_C5 (ts : List String) (w : String) (hD : DUMCHAR ∉ ts) :
    selfSumFor w (mapperTokens ts) = ts.count w :=
  selfSumFor_mapperTokens ts w hD

theorem claim_C5_witness :
    DUMCHAR ∉ ["i", "like", "me", "and", "you", "like", "me", "too"] ∧
    selfSumFor "me" (mapperTokens ["i", "like", "me", "and", "you", "like", "me", "too"]) =
      (["i", "like", "me", "and", "you", "like", "me", "too"] : List String).count "me" ∧
    (["i", "like", "me", "and", "you", "like", "me", "too"] : List String).count "me" = 2 :=
  ⟨by decide, claim_C5 _ "me" (by decide), by decide⟩

/-- C7: for every non-empty multiset of stripes all of which were produced by
the mapper, the merged SELF count `total_w` is at least 1, so the reducer's
normalization never divides by zero: the `ZeroDivisionError` branch is
unreachable. -/
theorem claim_C7 (ss : List Stripe) (hne : ss ≠ [])
    (hsrc : ∀ s ∈ ss, ∃ ts k, (k, s) ∈ mapperTokens ts) :
    1 ≤ dictGet (mergeAll ss) DUMCHAR 0 ∧
    ∀ w e, reducer w ss ≠ Except.error e := by
  have htot : 1 ≤ dictGet (mergeAll ss) DUMCHAR 0 := by
    rw [dictGet_mergeAll]
    have hterm : ∀ s ∈ ss, 1 ≤ entriesVal s DUMCHAR := by
      intro s hs
      obtain ⟨ts, k, hk⟩ := hsrc s hs
      exact le_trans (mapper_stripe_self_ge_one ts k s hk)
        (dictGet_le_entriesVal s DUMCHAR)
    cases ss with
    | nil => exact absurd rfl hne
    | cons s t =>
        rw [List.map_cons, List.sum_cons]
        have := hterm s (List.mem_cons_self _ _)
        omega
  refine ⟨htot, ?_⟩
  intro w e
  rw [reducer_eq,
    if_neg (fun hcon : _ ∧ dictGet (mergeAll ss) DUMCHAR 0 = 0 => by omega)]
  exact fun h => Except.noConfusion h

theorem claim_C7_witness :
    ([[(DUMCHAR, 1), ("b", 1)], [(DUMCHAR, 1)]] : List Stripe) ≠ [] ∧
    1 ≤ dictGet (mergeAll [[(DUMCHAR, 1), ("b", 1)], [(DUMCHAR, 1)]]) DUMCHAR 0 := by
  refine ⟨by decide, ?_⟩
  refine (claim_C7 [[(DUMCHAR, 1), ("b", 1)], [(DUMCHAR, 1)]] (by decide) ?_).1
  intro s hs
  rcases List.mem_cons.mp hs with rfl | hs2
  · exact ⟨["a", "b"], "a", by decide⟩
  · rcases List.mem_cons.mp hs2 with rfl | hs3
    · exact ⟨["a", "b"], "b", by decide⟩
    · simp at hs3

/-- C4: permuting the stripes fed to the reducer for one key yields an
identical result: the same error behaviour, and on success an identical
neighbour-to-probability mapping (pointwise equal, with exactly equal
probability values). -/
theorem claim_C4 (w : String) (ss₁ ss₂ : List Stripe) (hp : ss₁.Perm ss₂) :
    (∀ e, reducer w ss₁ = Except.error e ↔ reducer w ss₂ = Except.error e) ∧
    (∀ d₁, reducer w ss₁ = Except.ok d₁ →
      ∃ d₂, reducer w ss₂ = Except.ok d₂ ∧ d₂.1 = d₁.1 ∧
        ∀ q, dictFind d₁.2 q = dictFind d₂.2 q) := by
  have hcond : (mergeAll ss₁ ≠ [] ∧ dictGet (mergeAll ss₁) DUMCHAR 0 = 0) ↔
      (mergeAll ss₂ ≠ [] ∧ dictGet (mergeAll ss₂) DUMCHAR 0 = 0) := by
    rw [mergeAll_perm_dictGet ss₁ ss₂ hp DUMCHAR]
    have hn := mergeAll_perm_nil ss₁ ss₂ hp
    constructor
    · rintro ⟨h1, h2⟩
      exact ⟨fun h => h1 (hn.mpr h), h2⟩
    · rintro ⟨h1, h2⟩
      exact ⟨fun h => h1 (hn.mp h), h2⟩
  constructor
  · intro e
    rw [reducer_eq, reducer_eq]
    by_cases hc : mergeAll ss₁ ≠ [] ∧ dictGet (mergeAll ss₁) DUMCHAR 0 = 0
    · rw [if_pos hc, if_pos (hcond.mp hc)]
    · rw [if_neg hc, if_neg (fun h => hc (hcond.mpr h))]
      exact ⟨fun h => Except.noConfusion h, fun h => Except.noConfusion h⟩
  · intro d₁ h₁
    rw [reducer_eq] at h₁
    by_cases hc : mergeAll ss₁ ≠ [] ∧ dictGet (mergeAll ss₁) DUMCHAR 0 = 0
    · rw [if_pos hc] at h₁
      exact absurd h₁ (fun h => Except.noConfusion h)
    · rw [if_neg hc] at h₁
      have hd := Except.ok.inj h₁
      refine ⟨(w, reducerDist (mergeAll ss₂)), ?_, ?_, ?_⟩
      · rw [reducer_eq, if_neg (fun h => hc (hcond.mpr h))]
      · rw [← hd]
      · intro q
        rw [← hd]
        exact reducerDist_perm_find ss₁ ss₂ hp q

theorem claim_C4_witness :
    ([[(DUMCHAR, 1), ("b", 1)], [(DUMCHAR, 1)]] : List Stripe).Perm
      [[(DUMCHAR, 1)], [(DUMCHAR, 1), ("b", 1)]] ∧
    (reducer "b" [[(DUMCHAR, 1), ("b", 1)], [(DUMCHAR, 1)]] =
        Except.error "ZeroDivisionError" ↔
      reducer "b" [[(DUMCHAR, 1)], [(DUMCHAR, 1), ("b", 1)]] =
        Except.error "ZeroDivisionError") :=
  ⟨List.Perm.swap _ _ _,
    (claim_C4 "b" _ _ (List.Perm.swap _ _ _)).1 "ZeroDivisionError"⟩

/-- C10 (implicit): over any corpus of token sequences, for the multiset of
all stripes the mapper emits for a key `w` that occurs in the corpus, each
merged neighbour count is at most the merged SELF count, the neighbour counts
sum to at most the SELF count, the reducer succeeds, every emitted probability
is strictly positive and at most 1, and the probabilities sum to the fraction
of occurrences of `w` that have a successor — in particular to at most 1. -/
theorem claim_C10 (w : String) (recs : List (List String))
    (hD : ∀ ts ∈ recs, DUMCHAR ∉ ts) (hw : ∃ ts ∈ recs, w ∈ ts) :
    (∀ q, q ≠ DUMCHAR → dictGet (corpusMerged w recs) q 0 ≤ corpusTotal w recs) ∧
    neighborTotal (corpusMerged w recs) ≤ corpusTotal w recs ∧
    reducer w (corpusStripes w recs) = Except.ok (w, corpusDist w recs) ∧
    (∀ p ∈ corpusDist w recs, 0 < p.2 ∧ p.2 ≤ 1) ∧
    sumProbs (corpusDist w recs) =
      ((recs.map (fun ts => sucCount ts w)).sum : ℚ) / (corpusTotal w recs : ℚ) ∧
    sumProbs (corpusDist w recs) ≤ 1 := by
  have htot := corpusTotal_ge_one w recs hD hw
  have hNT := corpusNT_le_total w recs hD
  have htpos : (0 : ℚ) < (corpusTotal w recs : ℚ) := by
    have h0 : 0 < corpusTotal w recs := by omega
    exact_mod_cast h0
  refine ⟨?_, hNT, ?_, ?_, ?_, ?_⟩
  · intro q hq
    exact le_trans (corpus_key_le_NT w recs q hq) hNT
  · exact reducer_ok_of_total_pos w (corpusStripes w recs) htot
  · intro p hp
    obtain ⟨kv, hkv, hkne, hpe⟩ := mem_reducerDist (corpusMerged w recs) p hp
    have h1 : 1 ≤ kv.2 := corpusMerged_val_ge_one w recs kv hkv
    have h2 : kv.2 ≤ corpusTotal w recs :=
      le_trans (le_trans (mem_val_le_entriesVal _ kv hkv)
        (entriesVal_le_neighborTotal _ kv.1 hkne)) hNT
    constructor
    · rw [hpe]
      show (0 : ℚ) < (kv.2 : ℚ) / (corpusTotal w recs : ℚ)
      apply div_pos _ htpos
      have h1' : 0 < kv.2 := by omega
      exact_mod_cast h1'
    · rw [hpe]
      show (kv.2 : ℚ) / (corpusTotal w recs : ℚ) ≤ 1
      rw [div_le_one htpos]
      exact_mod_cast h2
  · show sumProbs (reducerDist (corpusMerged w recs)) = _
    rw [sumProbs_reducerDist, corpusNT_eq w recs hD]
    rfl
  · have hs : sumProbs (corpusDist w recs) =
        (neighborTotal (corpusMerged w recs) : ℚ) / (corpusTotal w recs : ℚ) :=
      sumProbs_reducerDist _
    rw [hs, div_le_one htpos]
    exact_mod_cast hNT

theorem claim_C10_witness :
    (∀ ts ∈ [["a", "b"]], DUMCHAR ∉ ts) ∧
    (∃ ts ∈ [["a", "b"]], "a" ∈ ts) ∧
    sumProbs (corpusDist "a" [["a", "b"]]) ≤ 1 :=
  ⟨by decide, by decide,
    (claim_C10 "a" [["a", "b"]] (by decide) (by decide)).2.2.2.2.2⟩

/-- C3 (amended): over any corpus, for the non-empty multiset of all
mapper-produced stripes for a token `w` occurring in the corpus, the reducer
emits a distribution in which no probability is negative and the sum of the
probabilities is at most 1.0 — it equals 1.0 only when every occurrence of
`w` has a successor, so the original "sums to 1.0 within tolerance" fails
when some occurrence of `w` ends its record. -/
theorem claim_C3_amended (w : String) (recs : List (List String))
    (hD : ∀ ts ∈ recs, DUMCHAR ∉ ts) (hw : ∃ ts ∈ recs, w ∈ ts) :
    reducer w (corpusStripes w recs) = Except.ok (w, corpusDist w recs) ∧
    (∀ p ∈ corpusDist w recs, 0 ≤ p.2) ∧
    sumProbs (corpusDist w recs) ≤ 1 := by
  have htot := corpusTotal_ge_one w recs hD hw
  have htpos : (0 : ℚ) < (corpusTotal w recs : ℚ) := by
    have h0 : 0 < corpusTotal w recs := by omega
    exact_mod_cast h0
  refine ⟨reducer_ok_of_total_pos w (corpusStripes w recs) htot, ?_, ?_⟩
  · intro p hp
    obtain ⟨kv, hkv, hkne, hpe⟩ := mem_reducerDist (corpusMerged w recs) p hp
    rw [hpe]
    show (0 : ℚ) ≤ (kv.2 : ℚ) / (corpusTotal w recs : ℚ)
    exact div_nonneg (Nat.cast_nonneg _) (Nat.cast_nonneg _)
  · have hs : sumProbs (corpusDist w recs) =
        (neighborTotal (corpusMerged w recs) : ℚ) / (corpusTotal w recs : ℚ) :=
      sumProbs_reducerDist _
    rw [hs, div_le_one htpos]
    exact_mod_cast corpusNT_le_total w recs hD

theorem claim_C3_amended_witness :
    (∀ ts ∈ [["x", "y"]], DUMCHAR ∉ ts) ∧
    (∃ ts ∈ [["x", "y"]], "x" ∈ ts) ∧
    sumProbs (corpusDist "x" [["x", "y"]]) ≤ 1 :=
  ⟨by decide, by decide,
    (claim_C3_amended "x" [["x", "y"]] (by decide) (by decide)).2.2⟩

/-- C3 (counterexample): in the record `1,"a b"` the token `b` occurs only as
the last token; its only stripe is `{SELF: 1}`, the reducer emits the empty
distribution for it, and the probabilities sum to 0, not to 1.0 within the
1e-9 tolerance. -/
theorem claim_C3_counterexample :
    ("b" ∈ (["a", "b"] : List String)) ∧
    corpusStripes "b" [["a", "b"]] = [[(DUMCHAR, 1)]] ∧
    reducer "b" (corpusStripes "b" [["a", "b"]]) =
      Except.ok ("b", corpusDist "b" [["a", "b"]]) ∧
    corpusDist "b" [["a", "b"]] = [] ∧
    ¬ (|sumProbs (corpusDist "b" [["a", "b"]]) - 1| ≤ 1 / 1000000000) := by
  refine ⟨by decide, by decide, rfl, rfl, ?_⟩
  rw [show corpusDist "b" [["a", "b"]] = [] from rfl]
  rw [show sumProbs [] = (0 : ℚ) from rfl]
  norm_num

/-- C9: for every key other than the target word, `reducer_topten` emits
nothing and raises nothing (a pure filter); in particular, if the target
token never appears, every call it receives returns the empty output. -/
theorem claim_C9 (w : String) (probs : List (List (String × ℚ)))
    (h : w ≠ TARGET_WORD) : reducer_topten w probs = Except.ok [] := by
  rw [reducer_topten, if_neg h]

theorem claim_C9_witness :
    ("you" : String) ≠ TARGET_WORD ∧
    reducer_topten "you" [[("a", (1 : ℚ))]] = Except.ok [] :=
  ⟨by decide, claim_C9 "you" [[("a", (1 : ℚ))]] (by decide)⟩

/-- C8: the worked example — record `1,"I like me and you like me too"`
tokenizes to `[i, like, me, and, you, like, me, too]`; the mapper emits for
`me` the first-occurrence stripe `{SELF:1, and:1, too:1}` and the repeat
stripe `{SELF:1}`; the reducer merges them to `{SELF:2, and:1, too:1}` and
emits the distribution `{and: 0.5, too: 0.5}`. -/
theorem claim_C8 :
    tokensOfLine (String.toList "1,\"I like me and you like me too\"") =
      Except.ok ["i", "like", "me", "and", "you", "like", "me", "too"] ∧
    mapper (String.toList "1,\"I like me and you like me too\"") =
      Except.ok (mapperTokens ["i", "like", "me", "and", "you", "like", "me", "too"]) ∧
    stripesFor "me" (mapperTokens ["i", "like", "me", "and", "you", "like", "me", "too"]) =
      [[(DUMCHAR, 1), ("and", 1), ("too", 1)], [(DUMCHAR, 1)]] ∧
    mergeAll [[(DUMCHAR, 1), ("and", 1), ("too", 1)], [(DUMCHAR, 1)]] =
      [(DUMCHAR, 2), ("and", 1), ("too", 1)] ∧
    reducer "me" [[(DUMCHAR, 1), ("and", 1), ("too", 1)], [(DUMCHAR, 1)]] =
      Except.ok ("me", [("and", (1 : ℚ) / 2), ("too", (1 : ℚ) / 2)]) :=
  ⟨rfl, rfl, by decide, by decide, rfl⟩

/-- C6 (counterexample): a line without the identifier separator is not
skipped — the subscript `sublines[1]` raises `IndexError` out of the mapper,
so the malformed record is neither skipped nor handled. -/
theorem claim_C6_counterexample :
    mapper (String.toList "no separator here") = Except.error "IndexError" ∧
    mapper (String.toList "no separator here") ≠ Except.ok [] := by
  refine ⟨rfl, ?_⟩
  intro h
  rw [show mapper (String.toList "no separator here") = Except.error "IndexError"
    from rfl] at h
  exact Except.noConfusion h

/-- C6 (amended): for every input line in which the identifier separator is
absent, the mapper raises `IndexError`; the record is not skipped and the
exception propagates into the pipeline. -/
theorem claim_C6_amended (line : List Char) (h : splitFirstComma line = none) :
    mapper line = Except.error "IndexError" := by
  unfold mapper tokensOfLine
  rw [h]

theorem claim_C6_amended_witness :
    splitFirstComma (String.toList "abc") = none ∧
    mapper (String.toList "abc") = Except.error "IndexError" :=
  ⟨rfl, claim_C6_amended _ rfl⟩

/-- C2 (counterexample): for the target word's distribution
`{zz: 0.5, aa: 0.5}` (a tie), the code's stable sort keeps the insertion
order and ranks `zz` first, not the lexicographically smaller `aa`, so the
output is not the probability-descending, lexicographically tie-broken
ranking the claim states. -/
theorem claim_C2_counterexample :
    reducer_topten TARGET_WORD [[("zz", (1 : ℚ) / 2), ("aa", (1 : ℚ) / 2)]] ≠
      Except.ok (specRanked [("zz", (1 : ℚ) / 2), ("aa", (1 : ℚ) / 2)]) := by
  have hsort : sortByValDesc [("zz", (1 : ℚ) / 2), ("aa", (1 : ℚ) / 2)] =
      [("zz", (1 : ℚ) / 2), ("aa", (1 : ℚ) / 2)] := by
    show sortIns ("zz", (1 : ℚ) / 2) [("aa", (1 : ℚ) / 2)] = _
    rw [sortIns_cons, if_pos (le_refl _)]
  have hcode : reducer_topten TARGET_WORD [[("zz", (1 : ℚ) / 2), ("aa", (1 : ℚ) / 2)]] =
      Except.ok [(1, ("zz", (1 : ℚ) / 2)), (2, ("aa", (1 : ℚ) / 2))] := by
    have h1 : reducer_topten TARGET_WORD [[("zz", (1 : ℚ) / 2), ("aa", (1 : ℚ) / 2)]] =
        Except.ok ((List.range
            (if (sortByValDesc [("zz", (1 : ℚ) / 2), ("aa", (1 : ℚ) / 2)]).length > 10
              then 10
              else (sortByValDesc [("zz", (1 : ℚ) / 2), ("aa", (1 : ℚ) / 2)]).length)).map
          (fun rank =>
            (rank + 1,
              (sortByValDesc [("zz", (1 : ℚ) / 2), ("aa", (1 : ℚ) / 2)]).getD rank ("", 0)))) :=
      rfl
    rw [h1, hsort]
    rfl
  have hspecsort : specSort [("zz", (1 : ℚ) / 2), ("aa", (1 : ℚ) / 2)] =
      [("aa", (1 : ℚ) / 2), ("zz", (1 : ℚ) / 2)] := by
    show specIns ("zz", (1 : ℚ) / 2) [("aa", (1 : ℚ) / 2)] = _
    rw [specIns_cons, if_neg ?hneg]
    · rfl
    case hneg =>
      rintro (h | ⟨-, h2⟩)
      · exact absurd h (lt_irrefl _)
      · rw [show strLe "zz" "aa" = false from by decide] at h2
        exact Bool.false_ne_true h2
  have hspec : specRanked [("zz", (1 : ℚ) / 2), ("aa", (1 : ℚ) / 2)] =
      [(1, ("aa", (1 : ℚ) / 2)), (2, ("zz", (1 : ℚ) / 2))] := by
    show (List.range
        (if (specSort [("zz", (1 : ℚ) / 2), ("aa", (1 : ℚ) / 2)]).length > 10 then 10
          else (specSort [("zz", (1 : ℚ) / 2), ("aa", (1 : ℚ) / 2)]).length)).map
      (fun r => (r + 1, (specSort [("zz", (1 : ℚ) / 2), ("aa", (1 : ℚ) / 2)]).getD r ("", 0))) = _
    rw [hspecsort]
    rfl
  intro hcon
  rw [hcode, hspec] at hcon
  have hlist := Except.ok.inj hcon
  have hfirst := congrArg
    (fun l : List (Nat × String × ℚ) => (l.headD (0, ("", (0 : ℚ)))).2.1) hlist
  exact absurd hfirst (by decide)

/-- C2 (amended): the code sorts only by probability descending with a stable
sort, so ties keep the order in which neighbours entered the merged counter
rather than ascending lexicographic order.  When all probabilities are
distinct there are no ties and the emitted output is exactly the claimed
ranking: the first `K = min(10, n)` entries of the probability-descending
sort, as `(rank, (neighbor, probability))` with dense 1-based ranks. -/
theorem claim_C2_amended (d : List (String × ℚ))
    (hd : d.Pairwise (fun a b => a.2 ≠ b.2)) :
    reducer_topten TARGET_WORD [d] = Except.ok (specRanked d) := by
  have h1 : reducer_topten TARGET_WORD [d] =
      Except.ok ((List.range
          (if (sortByValDesc d).length > 10 then 10 else (sortByValDesc d).length)).map
        (fun rank => (rank + 1, (sortByValDesc d).getD rank ("", 0)))) := rfl
  rw [h1, sortByValDesc_eq_specSort d hd]
  rfl

theorem claim_C2_amended_witness :
    (List.Pairwise (fun (a b : String × ℚ) => a.2 ≠ b.2)
      [("b", (2 : ℚ)), ("a", (1 : ℚ))]) ∧
    reducer_topten TARGET_WORD [[("b", (2 : ℚ)), ("a", (1 : ℚ))]] =
      Except.ok (specRanked [("b", (2 : ℚ)), ("a", (1 : ℚ))]) :=
  ⟨by decide, claim_C2_amended _ (by decide)⟩

/-- C1 (code-bug evidence): when two distributions arrive for the target
word, `reducer_topten` ranks only the last one — it emits `[(1, (bbb, 1))]`
for the input `[{aaa: 1}, {bbb: 1}]` — whereas the required merge-then-rank
policy (sum then normalize, then sort) would emit
`[(1, (aaa, 0.5)), (2, (bbb, 0.5))]`. -/
theorem claim_C1_last_wins :
    reducer_topten TARGET_WORD [[("aaa", (1 : ℚ))], [("bbb", (1 : ℚ))]] =
      Except.ok [(1, ("bbb", (1 : ℚ)))] ∧
    specRanked (specMergeDists [[("aaa", (1 : ℚ))], [("bbb", (1 : ℚ))]]) =
      [(1, ("aaa", (1 : ℚ) / 2)), (2, ("bbb", (1 : ℚ) / 2))] ∧
    reducer_topten TARGET_WORD [[("aaa", (1 : ℚ))], [("bbb", (1 : ℚ))]] ≠
      Except.ok (specRanked (specMergeDists [[("aaa", (1 : ℚ))], [("bbb", (1 : ℚ))]])) := by
  have hm : specMergeDists [[("aaa", (1 : ℚ))], [("bbb", (1 : ℚ))]] =
      [("aaa", (1 : ℚ) / 2), ("bbb", (1 : ℚ) / 2)] := by
    have h0 : specMergeDists [[("aaa", (1 : ℚ))], [("bbb", (1 : ℚ))]] =
        mapVal (fun v => v / ((List.map Prod.snd
            [("aaa", (0 : ℚ) + 1), ("bbb", (0 : ℚ) + 1)]).sum))
          [("aaa", (0 : ℚ) + 1), ("bbb", (0 : ℚ) + 1)] := rfl
    rw [h0]
    simp [mapVal]
    norm_num
  have h2 : specRanked [("aaa", (1 : ℚ) / 2), ("bbb", (1 : ℚ) / 2)] =
      [(1, ("aaa", (1 : ℚ) / 2)), (2, ("bbb", (1 : ℚ) / 2))] := by
    have hs : specSort [("aaa", (1 : ℚ) / 2), ("bbb", (1 : ℚ) / 2)] =
        [("aaa", (1 : ℚ) / 2), ("bbb", (1 : ℚ) / 2)] := by
      show specIns ("aaa", (1 : ℚ) / 2) [("bbb", (1 : ℚ) / 2)] = _
      rw [specIns_cons, if_pos (Or.inr ⟨rfl, by decide⟩)]
    show (List.range
        (if (specSort [("aaa", (1 : ℚ) / 2), ("bbb", (1 : ℚ) / 2)]).length > 10 then 10
          else (specSort [("aaa", (1 : ℚ) / 2), ("bbb", (1 : ℚ) / 2)]).length)).map
      (fun r =>
        (r + 1, (specSort [("aaa", (1 : ℚ) / 2), ("bbb", (1 : ℚ) / 2)]).getD r ("", 0))) = _
    rw [hs]
    rfl
  refine ⟨rfl, by rw [hm]; exact h2, ?_⟩
  intro hcon
  rw [show reducer_topten TARGET_WORD [[("aaa", (1 : ℚ))], [("bbb", (1 : ℚ))]] =
      Except.ok [(1, ("bbb", (1 : ℚ)))] from rfl, hm, h2] at hcon
  have hlist := Except.ok.inj hcon
  have hlen := congrArg List.length hlist
  simp at hlen

end Stripes
